import Mathlib

/-!
Verification of the hierarchical selection-state engine of ZipLens
(`FileTree.tsx`): tree reconstruction from flat path lists (`buildTree`),
the selection engine (`toggleFile`, `toggleFolder`, `updateParentStates`,
`areAllChildrenSelected`) and the expansion store (`toggleExpand`).

The TypeScript component is embedded shallowly:

* JavaScript strings are `String`, arrays are `List`.
* A JavaScript object used as a string-keyed map is an association list of
  nodes kept in the object's enumeration order.  Per ECMA-262
  (OrdinaryOwnPropertyKeys), enumeration lists keys that are canonical
  numeric strings below 2^32 - 1 first, in ascending numeric order, and the
  remaining string keys afterwards in insertion order.  Creating a fresh
  property therefore inserts a canonical numeric-string key at its numeric
  position and appends any other key at the end (`jsObjInsert`); assigning
  to an existing key keeps its position.  `Object.values` is then a plain
  left-to-right traversal.
* `undefined`-or-present fields (`children?`) are `Option`.
* The in-place mutation of the `updatedSelected` array in
  `updateParentStates` is threaded explicitly through `processNode`.
-/

/-- `filePath.replace(/\\/g, "/")` at the character level: every backslash
becomes a forward slash. -/
def normalizeSlashes (s : String) : List Char :=
  s.data.map (fun c => if c = '\\' then '/' else c)

/-- JavaScript `String.prototype.split("/")` for a single-character
separator: the (possibly empty) pieces between occurrences of `/`. -/
def splitSlash : List Char → List (List Char)
  | [] => [[]]
  | c :: rest =>
    if c = '/' then [] :: splitSlash rest
    else
      match splitSlash rest with
      | [] => [[c]]
      | p :: ps => (c :: p) :: ps

/-- `filePath.replace(/\\/g, "/").split("/").filter(Boolean)`: normalize
separators, split on `/`, drop empty segments. -/
def splitPath (s : String) : List String :=
  ((splitSlash (normalizeSlashes s)).map (fun l => String.mk l)).filter
    (fun p => p != "")

/-- Decimal digit test for JavaScript property-key classification. -/
def isDigitChar (c : Char) : Bool :=
  '0' ≤ c && c ≤ '9'

/-- Numeric value of a digit string. -/
def digitsVal (l : List Char) : Nat :=
  l.foldl (fun acc c => acc * 10 + (c.toNat - 48)) 0

/-- A string is a JavaScript array-index key iff it is the canonical decimal
numeral of some `n` with `0 ≤ n < 2^32 - 1`: all digits, no leading zero
(except `"0"` itself), value below `4294967295`. -/
def isArrayIndexName (s : String) : Bool :=
  match s.data with
  | [] => false
  | c :: rest =>
    (c :: rest).all isDigitChar &&
      (rest.isEmpty || c != '0') &&
      digitsVal (c :: rest) < 4294967295

/-- Numeric sort key of an array-index property name. -/
def keyNumVal (s : String) : Nat :=
  digitsVal s.data

/-- One entry of the intermediate node map of `buildTree`
(`{ __node: { name, path, children } }`): `children` is `none` when the
node was created as the last segment of a path (`undefined` in the source)
and `some` of a child map otherwise. -/
inductive RawNode : Type where
  | mk (name : String) (path : String) (children : Option (List RawNode))

def RawNode.name : RawNode → String
  | .mk n _ _ => n

def RawNode.path : RawNode → String
  | .mk _ p _ => p

def RawNode.children : RawNode → Option (List RawNode)
  | .mk _ _ c => c

/-- Insert a freshly created property at its JavaScript enumeration
position among array-index keys: before the first entry that is a
non-index key or an index key with a larger numeric value. -/
def insertIdxKey (n : RawNode) : List RawNode → List RawNode
  | [] => [n]
  | m :: rest =>
    if isArrayIndexName m.name && keyNumVal m.name ≤ keyNumVal n.name then
      m :: insertIdxKey n rest
    else
      n :: m :: rest

/-- `current[part] = { __node: ... }` for a key not yet present: an
array-index key goes to its numeric position, any other key is appended
(insertion order). -/
def jsObjInsert (m : List RawNode) (n : RawNode) : List RawNode :=
  if isArrayIndexName n.name then insertIdxKey n m else m ++ [n]

/-- The body of `parts.forEach` in `buildTree`, for one path: walk the
segment list, creating missing nodes.  A fresh last segment gets
`children = none` (`undefined`); a fresh inner segment gets a child map
that the rest of the path is inserted into.  When the segment already
exists the walk continues into its `children`; the source computes
`current[part].__node.children ?? {}`, so when the existing node has no
`children` the remainder of the path is written into a throwaway object
and discarded. -/
def insertChain : List String → String → List RawNode → List RawNode
  | [], _, m => m
  | part :: rest, currentPath, m =>
    let p := if currentPath = "" then part else currentPath ++ "/" ++ part
    if m.any (fun n => n.name == part) then
      m.map (fun n =>
        if n.name == part then
          match n.children with
          | none => n
          | some c => RawNode.mk n.name n.path (some (insertChain rest p c))
        else n)
    else
      jsObjInsert m
        (RawNode.mk part p
          (if rest.isEmpty then none else some (insertChain rest p [])))

/-- The first phase of `buildTree`: fold every path of the input into the
root node map, skipping falsy (empty) path strings. -/
def rawBuild (files : List String) : List RawNode :=
  files.foldl
    (fun root filePath =>
      if filePath = "" then root
      else insertChain (splitPath filePath) "" root)
    []

/-- The output tree node of `buildTree` (`FileNode` in the source):
`children` is absent for leaves and otherwise a non-empty array. -/
inductive FileNode : Type where
  | mk (name : String) (path : String) (children : Option (List FileNode))

def FileNode.name : FileNode → String
  | .mk n _ _ => n

def FileNode.path : FileNode → String
  | .mk _ p _ => p

def FileNode.children : FileNode → Option (List FileNode)
  | .mk _ _ c => c

mutual

/-- One entry of `convert`: the `children` field is set only when the raw
children map is present and non-empty. -/
def convertNode : RawNode → FileNode
  | .mk nm p none => FileNode.mk nm p none
  | .mk nm p (some c) =>
    if c.isEmpty then FileNode.mk nm p none
    else FileNode.mk nm p (some (convertList c))

/-- `convert` over `Object.values` of a node map (the map is already kept
in enumeration order). -/
def convertList : List RawNode → List FileNode
  | [] => []
  | n :: t => convertNode n :: convertList t

end

/-- `buildTree(files)`: build the raw node map, then convert it to the
nested `FileNode` array. -/
def buildTree (files : List String) : List FileNode :=
  convertList (rawBuild files)

mutual

/-- `getAllDescendantFiles`: the paths of all leaf descendants of a node
(a node without `children` is its own single leaf). -/
def getAllDescendantFiles : FileNode → List String
  | .mk _ p none => [p]
  | .mk _ _ (some cs) => descendantFilesList cs

/-- `children.flatMap(getAllDescendantFiles)`. -/
def descendantFilesList : List FileNode → List String
  | [] => []
  | n :: t => getAllDescendantFiles n ++ descendantFilesList t

end

/-- `areAllChildrenSelected`: a leaf checks its own membership, a node with
`children` checks that every descendant leaf path is selected. -/
def areAllChildrenSelected (selected : List String) : FileNode → Bool
  | .mk _ p none => selected.contains p
  | n@(.mk _ _ (some _)) =>
    (getAllDescendantFiles n).all (fun f => selected.contains f)

/-- `indexOf` + `splice(index, 1)`: remove the first occurrence of `x`,
a no-op when `x` is absent. -/
def removeFirst : List String → String → List String
  | [], _ => []
  | a :: r, x => if a == x then r else a :: removeFirst r x

mutual

/-- `processNode` of `updateParentStates`: returns the node's derived
state and the updated selection array.  For a node with `children`, the
children are processed first (threading the array left to right, as the
mutation order of the source does); if all children are selected the
node's path is pushed unless present, otherwise its first occurrence is
spliced out. -/
def processNode : FileNode → List String → Bool × List String
  | .mk _ p none, sel => (sel.contains p, sel)
  | .mk _ p (some cs), sel =>
    let r := processList cs sel
    if r.1 then
      (true, if r.2.contains p then r.2 else r.2 ++ [p])
    else
      (false, removeFirst r.2 p)

/-- `node.children.map(child => processNode(child))` followed by
`.every(state => state)`, threading the selection array. -/
def processList : List FileNode → List String → Bool × List String
  | [], sel => (true, sel)
  | n :: t, sel =>
    let a := processNode n sel
    let b := processList t a.2
    (a.1 && b.1, b.2)

end

/-- `updateParentStates`: process every root node over a copy of the
selection array and return the result. -/
def updateParentStates (tree : List FileNode) (newSelected : List String) :
    List String :=
  (processList tree newSelected).2

/-- `toggleFile`: flip the path's membership (filter it out when present,
push it when absent), then recompute all parent states. -/
def toggleFile (tree : List FileNode) (selected : List String)
    (path : String) : List String :=
  let newSelected :=
    if selected.contains path then selected.filter (fun f => f != path)
    else selected ++ [path]
  updateParentStates tree newSelected

/-- `[...new Set(l)]`: deduplicate keeping first occurrences (JavaScript
`Set` iterates in insertion order). -/
def jsSetOfList : List String → List String → List String
  | [], _ => []
  | x :: r, seen =>
    if seen.contains x then jsSetOfList r seen
    else x :: jsSetOfList r (seen ++ [x])

/-- `toggleFolder`: a node without `children` is ignored; otherwise, when
all descendant leaves are currently selected they are all filtered out,
else `[...new Set([...selected, ...descendantFiles])]` is taken. -/
def toggleFolder (selected : List String) (node : FileNode) : List String :=
  match node with
  | .mk _ _ none => selected
  | .mk _ _ (some _) =>
    let descendantFiles := getAllDescendantFiles node
    if areAllChildrenSelected selected node then
      selected.filter (fun f => !(descendantFiles.contains f))
    else
      jsSetOfList (selected ++ descendantFiles) []

/-- `toggleExpand`: delete the path from the expansion set when present,
add it otherwise. -/
def toggleExpand (expanded : List String) (path : String) : List String :=
  if expanded.contains path then expanded.filter (fun f => f != path)
  else expanded ++ [path]

/-- `isFolder` as computed in `renderTree`:
`!!node.children && node.children.length > 0`. -/
def isFolder : FileNode → Bool
  | .mk _ _ (some (_ :: _)) => true
  | _ => false

/-- `isChecked` as computed in `renderTree`: folders use
`areAllChildrenSelected`, leaves use membership of their own path. -/
def isNodeSelected (selected : List String) (node : FileNode) : Bool :=
  if isFolder node then areAllChildrenSelected selected node
  else selected.contains node.path

/-! ### Derived notions used to state the claims -/

mutual

/-- A node together with all nodes of its subtree. -/
def subNodes : FileNode → List FileNode
  | n@(.mk _ _ none) => [n]
  | n@(.mk _ _ (some cs)) => n :: subNodesList cs

def subNodesList : List FileNode → List FileNode
  | [] => []
  | n :: t => subNodes n ++ subNodesList t

end

/-- All nodes of a forest. -/
def allNodes (tree : List FileNode) : List FileNode :=
  subNodesList tree

mutual

/-- Paths of the subnodes that carry a `children` field (folder nodes). -/
def dirPathsOfNode : FileNode → List String
  | .mk _ _ none => []
  | .mk _ p (some cs) => p :: dirPathsOfList cs

def dirPathsOfList : List FileNode → List String
  | [] => []
  | n :: t => dirPathsOfNode n ++ dirPathsOfList t

end

/-- The consistency invariant of the spec: a folder node's path is stored
in the selection exactly when every descendant leaf path is. -/
def selectionInvariant (tree : List FileNode) (sel : List String) : Prop :=
  ∀ n ∈ allNodes tree, (FileNode.children n).isSome = true →
    (sel.contains (FileNode.path n) = true ↔
      ∀ q ∈ getAllDescendantFiles n, q ∈ sel)

/-- The data-model invariant "two nodes never share a `path`". -/
def pathsNodup (tree : List FileNode) : Prop :=
  ((allNodes tree).map FileNode.path).Nodup

/-- The two independent state cells of the component
(`selected`/`setSelected` and `expanded`/`setExpanded`). -/
structure ComponentState where
  selected : List String
  expanded : List String

/-- `toggleFile` updates only the `selected` cell. -/
def toggleFileState (tree : List FileNode) (path : String)
    (s : ComponentState) : ComponentState :=
  { s with selected := toggleFile tree s.selected path }

/-- `toggleFolder` updates only the `selected` cell. -/
def toggleFolderState (node : FileNode) (s : ComponentState) :
    ComponentState :=
  { s with selected := toggleFolder s.selected node }

/-- `toggleExpand` updates only the `expanded` cell. -/
def toggleExpandState (path : String) (s : ComponentState) :
    ComponentState :=
  { s with expanded := toggleExpand s.expanded path }

/-- Modelled from the spec: `expand(path)` of §4.3 is not in the sources
(only `toggleExpand` is); it adds `path` to the ExpansionSet and touches
nothing else. -/
def expandState (path : String) (s : ComponentState) : ComponentState :=
  { s with
    expanded :=
      if s.expanded.contains path then s.expanded else s.expanded ++ [path] }

/-- Modelled from the spec: `collapse(path)` of §4.3 is not in the sources
(only `toggleExpand` is); it removes `path` from the ExpansionSet and
touches nothing else. -/
def collapseState (path : String) (s : ComponentState) : ComponentState :=
  { s with expanded := s.expanded.filter (fun f => f != path) }

mutual

/-- No node of the subtree has an empty `children` array. -/
def noEmptyDirNode : FileNode → Prop
  | .mk _ _ none => True
  | .mk _ _ (some cs) => cs ≠ [] ∧ noEmptyDirList cs

def noEmptyDirList : List FileNode → Prop
  | [] => True
  | n :: t => noEmptyDirNode n ∧ noEmptyDirList t

end

/-- A well-formed path segment: non-empty, free of `/` and `\`. -/
def segOK (s : String) : Prop :=
  s ≠ "" ∧ ∀ c ∈ s.data, c ≠ '/' ∧ c ≠ '\\'

/-- The path of a child named `nm` under prefix `pre`
(`currentPath ? currentPath + "/" + part : part`). -/
def childPath (pre nm : String) : String :=
  if pre = "" then nm else pre ++ "/" ++ nm

/-- A well-formed full path: non-empty, free of backslashes, and with no
empty segments, i.e. no leading, trailing or doubled slash. -/
def pathOK (p : String) : Prop :=
  p ≠ "" ∧ (∀ c ∈ p.data, c ≠ '\\') ∧ p.data.head? ≠ some '/' ∧
    p.data.getLast? ≠ some '/' ∧
    p.data.Chain' (fun a b => ¬(a = '/' ∧ b = '/'))

mutual

/-- Every node of the subtree has a well-formed segment name and a path
equal to its parent's path plus `/` plus its name (its bare name at the
top level, where the prefix is empty). -/
def pathsWFNode : String → FileNode → Prop
  | pre, .mk nm p none => segOK nm ∧ p = childPath pre nm
  | pre, .mk nm p (some cs) => segOK nm ∧ p = childPath pre nm ∧
      pathsWFList p cs

def pathsWFList : String → List FileNode → Prop
  | _, [] => True
  | pre, n :: t => pathsWFNode pre n ∧ pathsWFList pre t

end

mutual

/-- Every node of the subtree has a well-formed full path. -/
def pathOKNode : FileNode → Prop
  | .mk _ p none => pathOK p
  | .mk _ p (some cs) => pathOK p ∧ pathOKList cs

def pathOKList : List FileNode → Prop
  | [] => True
  | n :: t => pathOKNode n ∧ pathOKList t

end

mutual

/-- `pathsWFNode` carried through the intermediate raw node map. -/
def rawWFNode : String → RawNode → Prop
  | pre, .mk nm p none => segOK nm ∧ p = childPath pre nm
  | pre, .mk nm p (some cs) => segOK nm ∧ p = childPath pre nm ∧
      rawWFList p cs

def rawWFList : String → List RawNode → Prop
  | _, [] => True
  | pre, n :: t => rawWFNode pre n ∧ rawWFList pre t

end

/-- Follows the spec's words on sibling order ("sibling order follows
first-occurrence order in the input (insertion order is preserved, not
sorted)"): identical to `insertChain` except that a freshly created key is
always appended at the end, with no special placement of numeric keys. -/
def insertChainSpecOrder : List String → String → List RawNode → List RawNode
  | [], _, m => m
  | part :: rest, currentPath, m =>
    let p := if currentPath = "" then part else currentPath ++ "/" ++ part
    if m.any (fun n => n.name == part) then
      m.map (fun n =>
        if n.name == part then
          match n.children with
          | none => n
          | some c =>
            RawNode.mk n.name n.path (some (insertChainSpecOrder rest p c))
        else n)
    else
      m ++
        [RawNode.mk part p
          (if rest.isEmpty then none
           else some (insertChainSpecOrder rest p []))]

/-- `rawBuild` with pure insertion order. -/
def rawBuildSpecOrder (files : List String) : List RawNode :=
  files.foldl
    (fun root filePath =>
      if filePath = "" then root
      else insertChainSpecOrder (splitPath filePath) "" root)
    []

/-- The tree the spec's sibling-order sentence describes: first-occurrence
(insertion) order at every level. -/
def buildTreeSpecOrder (files : List String) : List FileNode :=
  convertList (rawBuildSpecOrder files)

/-! ### Helper lemmas -/

theorem contains_iff (l : List String) (x : String) :
    l.contains x = true ↔ x ∈ l := by
  simp

theorem mem_removeFirst_of_ne {l : List String} {x p : String} (h : x ≠ p) :
    x ∈ removeFirst l p ↔ x ∈ l := by
  induction l with
  | nil => simp [removeFirst]
  | cons a r ih =>
    by_cases hap : a = p
    · subst hap
      simp only [removeFirst, beq_self_eq_true, if_true]
      simp [List.mem_cons, h]
    · have : (a == p) = false := by simp [hap]
      simp only [removeFirst, this, Bool.false_eq_true, if_false]
      simp [List.mem_cons, ih]

theorem removeFirst_nodup {l : List String} (p : String) (h : l.Nodup) :
    (removeFirst l p).Nodup := by
  induction l with
  | nil => simp [removeFirst]
  | cons a r ih =>
    rcases List.nodup_cons.mp h with ⟨ha, hr⟩
    by_cases hap : a = p
    · subst hap
      simpa only [removeFirst, beq_self_eq_true, if_true] using hr
    · have hb : (a == p) = false := by simp [hap]
      simp only [removeFirst, hb, Bool.false_eq_true, if_false]
      refine List.nodup_cons.mpr ⟨?_, ih hr⟩
      intro hmem
      exact ha ((mem_removeFirst_of_ne hap).mp hmem)

theorem not_mem_removeFirst {l : List String} {p : String} (h : l.Nodup) :
    p ∉ removeFirst l p := by
  induction l with
  | nil => simp [removeFirst]
  | cons a r ih =>
    rcases List.nodup_cons.mp h with ⟨ha, hr⟩
    by_cases hap : a = p
    · subst hap
      simpa only [removeFirst, beq_self_eq_true, if_true] using ha
    · have hb : (a == p) = false := by simp [hap]
      simp only [removeFirst, hb, Bool.false_eq_true, if_false]
      intro hmem
      rcases List.mem_cons.mp hmem with h1 | h2
      · exact hap h1.symm
      · exact ih hr h2

theorem mem_jsSetOfList {x : String} :
    ∀ (l seen : List String), x ∈ jsSetOfList l seen ↔ x ∈ l ∧ x ∉ seen := by
  intro l
  induction l with
  | nil => intro seen; simp [jsSetOfList]
  | cons y r ih =>
    intro seen
    by_cases hy : y ∈ seen
    · have hb : seen.contains y = true := (contains_iff _ _).mpr hy
      simp only [jsSetOfList, hb, if_true]
      rw [ih]
      constructor
      · rintro ⟨h1, h2⟩; exact ⟨List.mem_cons_of_mem _ h1, h2⟩
      · rintro ⟨h1, h2⟩
        rcases List.mem_cons.mp h1 with rfl | h1
        · exact absurd hy h2
        · exact ⟨h1, h2⟩
    · have hb : seen.contains y = false := by
        rw [← Bool.not_eq_true, contains_iff]; exact hy
      simp only [jsSetOfList, hb, Bool.false_eq_true, if_false]
      rw [List.mem_cons, ih]
      constructor
      · rintro (rfl | ⟨h1, h2⟩)
        · exact ⟨List.mem_cons_self _ _, hy⟩
        · refine ⟨List.mem_cons_of_mem _ h1, fun hc => h2 ?_⟩
          simp [hc]
      · rintro ⟨h1, h2⟩
        by_cases hxy : x = y
        · exact Or.inl hxy
        · have h1r : x ∈ r := by
            rcases List.mem_cons.mp h1 with h | h
            · exact absurd h hxy
            · exact h
          refine Or.inr ⟨h1r, fun hc => ?_⟩
          rcases List.mem_append.mp hc with hc | hc
          · exact h2 hc
          · exact hxy (List.mem_singleton.mp hc)

mutual

theorem processNode_stable : ∀ (n : FileNode) (sel : List String)
    (x : String), x ∉ dirPathsOfNode n →
    (x ∈ (processNode n sel).2 ↔ x ∈ sel)
  | .mk nm p none, sel, x, _ => by simp [processNode]
  | .mk nm p (some cs), sel, x, hx => by
    have hxp : x ≠ p := fun h => hx (by simp [dirPathsOfNode, h])
    have hxcs : x ∉ dirPathsOfList cs := fun h =>
      hx (by simp [dirPathsOfNode, h])
    have ih := processList_stable cs sel x hxcs
    simp only [processNode]
    cases h1 : (processList cs sel).1
    · simp only [Bool.false_eq_true, if_false]
      rw [mem_removeFirst_of_ne hxp]
      exact ih
    · simp only [if_true]
      by_cases h2 : (processList cs sel).2.contains p
      · simp only [h2, if_true]; exact ih
      · have : ((processList cs sel).2.contains p) = false := by
          rw [← Bool.not_eq_true]; exact h2
        simp only [this, Bool.false_eq_true, if_false]
        rw [List.mem_append]
        simp only [List.mem_singleton]
        constructor
        · rintro (h | h)
          · exact ih.mp h
          · exact absurd h hxp
        · intro h; exact Or.inl (ih.mpr h)

theorem processList_stable : ∀ (l : List FileNode) (sel : List String)
    (x : String), x ∉ dirPathsOfList l →
    (x ∈ (processList l sel).2 ↔ x ∈ sel)
  | [], sel, x, _ => by simp [processList]
  | n :: t, sel, x, hx => by
    have hxn : x ∉ dirPathsOfNode n := fun h =>
      hx (by simp [dirPathsOfList, List.mem_append, h])
    have hxt : x ∉ dirPathsOfList t := fun h =>
      hx (by simp [dirPathsOfList, List.mem_append, h])
    have ih1 := processNode_stable n sel x hxn
    have ih2 := processList_stable t (processNode n sel).2 x hxt
    simp only [processList]
    exact ih2.trans ih1

end

mutual

theorem processNode_nodup : ∀ (n : FileNode) (sel : List String),
    sel.Nodup → ((processNode n sel).2).Nodup
  | .mk nm p none, sel, h => by simpa [processNode] using h
  | .mk nm p (some cs), sel, h => by
    have ih := processList_nodup cs sel h
    simp only [processNode]
    cases h1 : (processList cs sel).1
    · simp only [Bool.false_eq_true, if_false]
      exact removeFirst_nodup p ih
    · simp only [if_true]
      by_cases h2 : (processList cs sel).2.contains p
      · simp only [h2, if_true]; exact ih
      · have hb : ((processList cs sel).2.contains p) = false := by
          rw [← Bool.not_eq_true]; exact h2
        simp only [hb, Bool.false_eq_true, if_false]
        have hp : p ∉ (processList cs sel).2 := by
          rw [← contains_iff, hb]; simp
        simp [List.nodup_append, ih, hp]

theorem processList_nodup : ∀ (l : List FileNode) (sel : List String),
    sel.Nodup → ((processList l sel).2).Nodup
  | [], sel, h => by simpa [processList] using h
  | n :: t, sel, h => by
    simp only [processList]
    exact processList_nodup t _ (processNode_nodup n sel h)

end

mutual

theorem processNode_fst : ∀ (n : FileNode) (sel : List String),
    (∀ x ∈ getAllDescendantFiles n, x ∉ dirPathsOfNode n) →
    (processNode n sel).1 =
      (getAllDescendantFiles n).all (fun f => sel.contains f)
  | .mk nm p none, sel, _ => by
    simp [processNode, getAllDescendantFiles]
  | .mk nm p (some cs), sel, h => by
    have hcs : ∀ x ∈ descendantFilesList cs, x ∉ dirPathsOfList cs := by
      intro x hx hmem
      exact h x (by simpa [getAllDescendantFiles] using hx)
        (by simp [dirPathsOfNode, hmem])
    have ih := processList_fst cs sel hcs
    simp only [processNode, getAllDescendantFiles]
    cases h1 : (processList cs sel).1
    · simp only [Bool.false_eq_true, if_false]
      rw [h1] at ih
      exact ih
    · simp only [if_true]
      rw [h1] at ih
      exact ih

theorem processList_fst : ∀ (l : List FileNode) (sel : List String),
    (∀ x ∈ descendantFilesList l, x ∉ dirPathsOfList l) →
    (processList l sel).1 =
      (descendantFilesList l).all (fun f => sel.contains f)
  | [], sel, _ => by simp [processList, descendantFilesList]
  | n :: t, sel, h => by
    have hn : ∀ x ∈ getAllDescendantFiles n, x ∉ dirPathsOfNode n := by
      intro x hx hmem
      exact h x (by simp [descendantFilesList, List.mem_append, hx])
        (by simp [dirPathsOfList, List.mem_append, hmem])
    have ht : ∀ x ∈ descendantFilesList t, x ∉ dirPathsOfList t := by
      intro x hx hmem
      exact h x (by simp [descendantFilesList, List.mem_append, hx])
        (by simp [dirPathsOfList, List.mem_append, hmem])
    have ih1 := processNode_fst n sel hn
    have ih2 := processList_fst t (processNode n sel).2 ht
    have hstable : (descendantFilesList t).all
        (fun f => ((processNode n sel).2).contains f) =
        (descendantFilesList t).all (fun f => sel.contains f) := by
      rw [Bool.eq_iff_iff, List.all_eq_true, List.all_eq_true]
      constructor
      · intro hall f hf
        rw [contains_iff]
        have hfn : f ∉ dirPathsOfNode n := fun hc =>
          h f (by simp [descendantFilesList, List.mem_append, hf])
            (by simp [dirPathsOfList, List.mem_append, hc])
        rw [← processNode_stable n sel f hfn, ← contains_iff]
        exact hall f hf
      · intro hall f hf
        rw [contains_iff]
        have hfn : f ∉ dirPathsOfNode n := fun hc =>
          h f (by simp [descendantFilesList, List.mem_append, hf])
            (by simp [dirPathsOfList, List.mem_append, hc])
        rw [processNode_stable n sel f hfn, ← contains_iff]
        exact hall f hf
    simp only [processList, descendantFilesList, List.all_append]
    rw [ih1, ih2, hstable]

end

mutual

theorem subnode_dirPath : ∀ (n d : FileNode), d ∈ subNodes n →
    (FileNode.children d).isSome = true →
    FileNode.path d ∈ dirPathsOfNode n
  | .mk nm p none, d, hmem, hd => by
    simp only [subNodes, List.mem_singleton] at hmem
    subst hmem
    simp [FileNode.children] at hd
  | .mk nm p (some cs), d, hmem, hd => by
    simp only [subNodes, List.mem_cons] at hmem
    rcases hmem with rfl | hmem
    · simp [FileNode.path, dirPathsOfNode]
    · simp only [dirPathsOfNode, List.mem_cons]
      exact Or.inr (subnodeList_dirPath cs d hmem hd)

theorem subnodeList_dirPath : ∀ (l : List FileNode) (d : FileNode),
    d ∈ subNodesList l → (FileNode.children d).isSome = true →
    FileNode.path d ∈ dirPathsOfList l
  | [], d, hmem, _ => by simp [subNodesList] at hmem
  | n :: t, d, hmem, hd => by
    simp only [subNodesList, List.mem_append] at hmem
    simp only [dirPathsOfList, List.mem_append]
    rcases hmem with hmem | hmem
    · exact Or.inl (subnode_dirPath n d hmem hd)
    · exact Or.inr (subnodeList_dirPath t d hmem hd)

end

mutual

theorem subnode_desc_subset : ∀ (n d : FileNode), d ∈ subNodes n →
    ∀ q ∈ getAllDescendantFiles d, q ∈ getAllDescendantFiles n
  | .mk nm p none, d, hmem, q, hq => by
    simp only [subNodes, List.mem_singleton] at hmem
    subst hmem
    exact hq
  | .mk nm p (some cs), d, hmem, q, hq => by
    simp only [subNodes, List.mem_cons] at hmem
    rcases hmem with rfl | hmem
    · exact hq
    · simp only [getAllDescendantFiles]
      exact subnodeList_desc_subset cs d hmem q hq

theorem subnodeList_desc_subset : ∀ (l : List FileNode) (d : FileNode),
    d ∈ subNodesList l →
    ∀ q ∈ getAllDescendantFiles d, q ∈ descendantFilesList l
  | [], d, hmem, _, _ => by simp [subNodesList] at hmem
  | n :: t, d, hmem, q, hq => by
    simp only [subNodesList, List.mem_append] at hmem
    simp only [descendantFilesList, List.mem_append]
    rcases hmem with hmem | hmem
    · exact Or.inl (subnode_desc_subset n d hmem q hq)
    · exact Or.inr (subnodeList_desc_subset t d hmem q hq)

end

mutual

theorem paths_perm_node : ∀ n : FileNode,
    ((subNodes n).map FileNode.path).Perm
      (getAllDescendantFiles n ++ dirPathsOfNode n)
  | .mk nm p none => by
    simp [subNodes, getAllDescendantFiles, dirPathsOfNode, FileNode.path]
  | .mk nm p (some cs) => by
    have ih := paths_perm_list cs
    simp only [subNodes, getAllDescendantFiles, dirPathsOfNode,
      List.map_cons, FileNode.path]
    exact (ih.cons p).trans List.perm_middle.symm

theorem paths_perm_list : ∀ l : List FileNode,
    ((subNodesList l).map FileNode.path).Perm
      (descendantFilesList l ++ dirPathsOfList l)
  | [] => by simp [subNodesList, descendantFilesList, dirPathsOfList]
  | n :: t => by
    have ih1 := paths_perm_node n
    have ih2 := paths_perm_list t
    simp only [subNodesList, descendantFilesList, dirPathsOfList,
      List.map_append]
    refine (ih1.append ih2).trans ?_
    rw [List.perm_iff_count]
    intro a
    simp only [List.count_append]
    omega

end

mutual

theorem processNode_inv : ∀ (n : FileNode) (sel : List String) (d : FileNode),
    (∀ x ∈ getAllDescendantFiles n, x ∉ dirPathsOfNode n) →
    (dirPathsOfNode n).Nodup → sel.Nodup →
    d ∈ subNodes n → (FileNode.children d).isSome = true →
    (FileNode.path d ∈ (processNode n sel).2 ↔
      ∀ q ∈ getAllDescendantFiles d, q ∈ sel)
  | .mk nm p none, sel, d, _, _, _, hmem, hd => by
    simp only [subNodes, List.mem_singleton] at hmem
    subst hmem
    simp [FileNode.children] at hd
  | .mk nm p (some cs), sel, d, hdisj, hnd, hsel, hmem, hd => by
    have hcsdisj : ∀ x ∈ descendantFilesList cs, x ∉ dirPathsOfList cs := by
      intro x hx hc
      exact hdisj x (by simpa [getAllDescendantFiles] using hx)
        (by simp [dirPathsOfNode, hc])
    have hnd' : (dirPathsOfList cs).Nodup ∧ p ∉ dirPathsOfList cs := by
      simp only [dirPathsOfNode] at hnd
      rcases List.nodup_cons.mp hnd with ⟨h1, h2⟩
      exact ⟨h2, h1⟩
    simp only [subNodes, List.mem_cons] at hmem
    rcases hmem with rfl | hmem
    · -- d is the node itself
      simp only [FileNode.path, getAllDescendantFiles, processNode]
      have hfst := processList_fst cs sel hcsdisj
      cases h1 : (processList cs sel).1
      · simp only [Bool.false_eq_true, if_false]
        have hnodup2 := processList_nodup cs sel hsel
        have hnot := not_mem_removeFirst (p := p) hnodup2
        have hallfalse :
            (descendantFilesList cs).all (fun f => sel.contains f) = false := by
          rw [← hfst, h1]
        constructor
        · intro hcon; exact absurd hcon hnot
        · intro hall
          exfalso
          have halltrue :
              (descendantFilesList cs).all (fun f => sel.contains f) = true :=
            List.all_eq_true.mpr
              (fun q hq => (contains_iff _ _).mpr (hall q hq))
          rw [halltrue] at hallfalse
          exact Bool.true_eq_false.mp hallfalse
      · simp only [if_true]
        have halltrue :
            (descendantFilesList cs).all (fun f => sel.contains f) = true := by
          rw [← hfst, h1]
        have hall : ∀ q ∈ descendantFilesList cs, q ∈ sel := fun q hq =>
          (contains_iff _ _).mp (List.all_eq_true.mp halltrue q hq)
        constructor
        · intro _; exact hall
        · intro _
          by_cases h2 : (processList cs sel).2.contains p
          · simp only [h2, if_true]
            exact (contains_iff _ _).mp h2
          · have hb : ((processList cs sel).2.contains p) = false := by
              rw [← Bool.not_eq_true]; exact h2
            simp only [hb, Bool.false_eq_true, if_false]
            exact List.mem_append.mpr (Or.inr (List.mem_singleton.mpr rfl))
    · -- d is a proper subnode
      have ih := processList_inv cs sel d hcsdisj hnd'.1 hsel hmem hd
      have hdp : FileNode.path d ∈ dirPathsOfList cs :=
        subnodeList_dirPath cs d hmem hd
      have hne : FileNode.path d ≠ p := fun h => hnd'.2 (h ▸ hdp)
      simp only [processNode]
      cases h1 : (processList cs sel).1
      · simp only [Bool.false_eq_true, if_false]
        rw [mem_removeFirst_of_ne hne]
        exact ih
      · simp only [if_true]
        by_cases h2 : (processList cs sel).2.contains p
        · simp only [h2, if_true]; exact ih
        · have hb : ((processList cs sel).2.contains p) = false := by
            rw [← Bool.not_eq_true]; exact h2
          simp only [hb, Bool.false_eq_true, if_false]
          rw [List.mem_append, List.mem_singleton]
          constructor
          · rintro (h | h)
            · exact ih.mp h
            · exact absurd h hne
          · intro h; exact Or.inl (ih.mpr h)

theorem processList_inv : ∀ (l : List FileNode) (sel : List String)
    (d : FileNode),
    (∀ x ∈ descendantFilesList l, x ∉ dirPathsOfList l) →
    (dirPathsOfList l).Nodup → sel.Nodup →
    d ∈ subNodesList l → (FileNode.children d).isSome = true →
    (FileNode.path d ∈ (processList l sel).2 ↔
      ∀ q ∈ getAllDescendantFiles d, q ∈ sel)
  | [], sel, d, _, _, _, hmem, _ => by simp [subNodesList] at hmem
  | n :: t, sel, d, hdisj, hnd, hsel, hmem, hd => by
    have hdisj_n : ∀ x ∈ getAllDescendantFiles n, x ∉ dirPathsOfNode n := by
      intro x hx hc
      exact hdisj x (by simp [descendantFilesList, List.mem_append, hx])
        (by simp [dirPathsOfList, List.mem_append, hc])
    have hdisj_t : ∀ x ∈ descendantFilesList t, x ∉ dirPathsOfList t := by
      intro x hx hc
      exact hdisj x (by simp [descendantFilesList, List.mem_append, hx])
        (by simp [dirPathsOfList, List.mem_append, hc])
    have hnd2 : (dirPathsOfNode n ++ dirPathsOfList t).Nodup := by
      simpa [dirPathsOfList] using hnd
    rcases List.nodup_append.mp hnd2 with ⟨hndn, hndt, hdisjnt⟩
    simp only [processList]
    simp only [subNodesList, List.mem_append] at hmem
    rcases hmem with hmem | hmem
    · have ih := processNode_inv n sel d hdisj_n hndn hsel hmem hd
      have hdp : FileNode.path d ∈ dirPathsOfNode n :=
        subnode_dirPath n d hmem hd
      have hnt : FileNode.path d ∉ dirPathsOfList t := fun hc =>
        hdisjnt hdp hc
      rw [processList_stable t _ _ hnt]
      exact ih
    · have ih := processList_inv t (processNode n sel).2 d hdisj_t hndt
        (processNode_nodup n sel hsel) hmem hd
      rw [ih]
      constructor
      · intro hall q hq
        have hq' : q ∈ descendantFilesList t :=
          subnodeList_desc_subset t d hmem q hq
        have hqn : q ∉ dirPathsOfNode n := fun hc =>
          hdisj q (by simp [descendantFilesList, List.mem_append, hq'])
            (by simp [dirPathsOfList, List.mem_append, hc])
        exact (processNode_stable n sel q hqn).mp (hall q hq)
      · intro hall q hq
        have hq' : q ∈ descendantFilesList t :=
          subnodeList_desc_subset t d hmem q hq
        have hqn : q ∉ dirPathsOfNode n := fun hc =>
          hdisj q (by simp [descendantFilesList, List.mem_append, hq'])
            (by simp [dirPathsOfList, List.mem_append, hc])
        exact (processNode_stable n sel q hqn).mpr (hall q hq)

end

theorem updateParentStates_invariant (tree : List FileNode)
    (sel : List String) (hnd : pathsNodup tree) (hsel : sel.Nodup) :
    selectionInvariant tree (updateParentStates tree sel) := by
  have hperm := paths_perm_list tree
  have hnd2 : (descendantFilesList tree ++ dirPathsOfList tree).Nodup :=
    hperm.nodup hnd
  rcases List.nodup_append.mp hnd2 with ⟨hnddesc, hnddir, hdisj⟩
  have hdisj' : ∀ x ∈ descendantFilesList tree, x ∉ dirPathsOfList tree :=
    fun x hx hc => hdisj hx hc
  intro d hmem hd
  have hmain := processList_inv tree sel d hdisj' hnddir hsel hmem hd
  rw [contains_iff]
  unfold updateParentStates
  rw [hmain]
  constructor
  · intro hall q hq
    have hq' : q ∈ descendantFilesList tree :=
      subnodeList_desc_subset tree d hmem q hq
    have hqn : q ∉ dirPathsOfList tree := hdisj' q hq'
    exact (processList_stable tree sel q hqn).mpr (hall q hq)
  · intro hall q hq
    have hq' : q ∈ descendantFilesList tree :=
      subnodeList_desc_subset tree d hmem q hq
    have hqn : q ∉ dirPathsOfList tree := hdisj' q hq'
    exact (processList_stable tree sel q hqn).mp (hall q hq)

theorem toggleLeaf_establishes_invariant (tree : List FileNode)
    (sel : List String) (p : String) (hnd : pathsNodup tree)
    (hsel : sel.Nodup) :
    selectionInvariant tree (toggleFile tree sel p) := by
  unfold toggleFile
  apply updateParentStates_invariant tree _ hnd
  by_cases h : sel.contains p
  · simp only [h, if_true]
    exact hsel.filter _
  · have hb : (sel.contains p) = false := by rw [← Bool.not_eq_true]; exact h
    simp only [hb, Bool.false_eq_true, if_false]
    rw [List.nodup_append]
    refine ⟨hsel, List.nodup_singleton p, ?_⟩
    intro a ha hc
    rcases List.mem_singleton.mp hc with rfl
    have : sel.contains a = true := (contains_iff _ _).mpr ha
    rw [this] at hb
    exact Bool.true_eq_false.mp hb

theorem toggleFolder_twice_membership (node : FileNode) (sel : List String)
    (hclean : (∀ d ∈ getAllDescendantFiles node, d ∈ sel) ∨
      (∀ d ∈ getAllDescendantFiles node, d ∉ sel)) :
    ∀ x, x ∈ toggleFolder (toggleFolder sel node) node ↔ x ∈ sel := by
  intro x
  match node with
  | .mk nm p none => simp [toggleFolder]
  | .mk nm p (some cs) =>
    have hdesc : getAllDescendantFiles (FileNode.mk nm p (some cs)) =
        descendantFilesList cs := rfl
    cases hcs : descendantFilesList cs with
    | nil =>
      have hall : areAllChildrenSelected sel (FileNode.mk nm p (some cs)) =
          true := by
        simp [areAllChildrenSelected, hdesc, hcs]
      simp only [toggleFolder, hdesc, hcs, hall, if_true]
      have hfilter :
          (sel.filter fun f => !(List.contains [] f)) = sel := by
        simp
      rw [hfilter]
      have hall2 := hall
      simp only [toggleFolder, hdesc, hcs, hall2, if_true, hfilter]
    | cons d0 ds =>
      rw [hdesc] at hclean
      rcases hclean with hA | hB
      · -- all descendant leaves already selected
        have hall : areAllChildrenSelected sel (FileNode.mk nm p (some cs)) =
            true := by
          simp only [areAllChildrenSelected, hdesc]
          exact List.all_eq_true.mpr
            (fun q hq => (contains_iff _ _).mpr (hA q hq))
        simp only [toggleFolder, hdesc, hall, if_true]
        set S1 := sel.filter
          (fun f => !((descendantFilesList cs).contains f)) with hS1
        have hd0 : d0 ∈ descendantFilesList cs := by rw [hcs]; simp
        have hd0n : d0 ∉ S1 := by
          rw [hS1]
          intro hc
          rcases List.mem_filter.mp hc with ⟨_, hneg⟩
          rw [(contains_iff _ _).mpr hd0] at hneg
          simp at hneg
        have hall2 : areAllChildrenSelected S1 (FileNode.mk nm p (some cs)) =
            false := by
          simp only [areAllChildrenSelected, hdesc]
          rw [← Bool.not_eq_true, List.all_eq_true]
          intro hc
          exact hd0n ((contains_iff _ _).mp (hc d0 hd0))
        simp only [hall2, Bool.false_eq_true, if_false]
        rw [mem_jsSetOfList]
        simp only [List.not_mem_nil, not_false_iff, and_true]
        rw [List.mem_append]
        constructor
        · rintro (h | h)
          · exact (List.mem_filter.mp h).1
          · exact hA x h
        · intro hx
          by_cases hxd : x ∈ descendantFilesList cs
          · exact Or.inr hxd
          · refine Or.inl (List.mem_filter.mpr ⟨hx, ?_⟩)
            simp [hxd]
      · -- no descendant leaf selected
        have hd0 : d0 ∈ descendantFilesList cs := by rw [hcs]; simp
        have hall : areAllChildrenSelected sel (FileNode.mk nm p (some cs)) =
            false := by
          simp only [areAllChildrenSelected, hdesc]
          rw [← Bool.not_eq_true, List.all_eq_true]
          intro hc
          exact hB d0 hd0 ((contains_iff _ _).mp (hc d0 hd0))
        simp only [toggleFolder, hdesc, hall, Bool.false_eq_true, if_false]
        set S1 := jsSetOfList (sel ++ descendantFilesList cs) [] with hS1
        have hS1mem : ∀ y, y ∈ S1 ↔ y ∈ sel ∨ y ∈ descendantFilesList cs := by
          intro y
          rw [hS1, mem_jsSetOfList]
          simp [List.mem_append]
        have hall2 : areAllChildrenSelected S1 (FileNode.mk nm p (some cs)) =
            true := by
          simp only [areAllChildrenSelected, hdesc]
          exact List.all_eq_true.mpr (fun q hq =>
            (contains_iff _ _).mpr ((hS1mem q).mpr (Or.inr hq)))
        simp only [hall2, if_true]
        rw [List.mem_filter]
        constructor
        · rintro ⟨h1, h2⟩
          rcases (hS1mem x).mp h1 with h | h
          · exact h
          · rw [(contains_iff _ _).mpr h] at h2
            simp at h2
        · intro hx
          refine ⟨(hS1mem x).mpr (Or.inl hx), ?_⟩
          have hxd : x ∉ descendantFilesList cs := fun hc => hB x hc hx
          simp [hxd]

theorem toggleLeaf_absent_path_flips_only_itself (tree : List FileNode)
    (sel : List String) (p : String)
    (hp : p ∉ (allNodes tree).map FileNode.path) :
    (p ∈ toggleFile tree sel p ↔ p ∉ sel) ∧
      ∀ q, q ≠ p → q ∉ dirPathsOfList tree →
        (q ∈ toggleFile tree sel p ↔ q ∈ sel) := by
  have hpd : p ∉ dirPathsOfList tree := by
    intro hc
    apply hp
    unfold allNodes
    rw [(paths_perm_list tree).mem_iff]
    exact List.mem_append.mpr (Or.inr hc)
  have hns : ∀ x, x ∉ dirPathsOfList tree →
      (x ∈ toggleFile tree sel p ↔
        x ∈ (if sel.contains p = true then sel.filter (fun f => f != p)
          else sel ++ [p])) := by
    intro x hx
    unfold toggleFile updateParentStates
    exact processList_stable tree _ x hx
  constructor
  · rw [hns p hpd]
    by_cases h : sel.contains p
    · simp only [h, if_true]
      constructor
      · intro hc
        rcases List.mem_filter.mp hc with ⟨_, hneg⟩
        simp at hneg
      · intro hc
        exact absurd ((contains_iff _ _).mp h) hc
    · have hb : (sel.contains p) = false := by
        rw [← Bool.not_eq_true]; exact h
      simp only [hb, Bool.false_eq_true, if_false]
      constructor
      · intro _
        intro hc
        rw [(contains_iff _ _).mpr hc] at hb
        exact Bool.true_eq_false.mp hb
      · intro _
        exact List.mem_append.mpr (Or.inr (List.mem_singleton.mpr rfl))
  · intro q hq hqd
    rw [hns q hqd]
    by_cases h : sel.contains p
    · simp only [h, if_true]
      rw [List.mem_filter]
      constructor
      · exact fun hc => hc.1
      · intro hc
        refine ⟨hc, ?_⟩
        simp [hq]
    · have hb : (sel.contains p) = false := by
        rw [← Bool.not_eq_true]; exact h
      simp only [hb, Bool.false_eq_true, if_false]
      rw [List.mem_append, List.mem_singleton]
      constructor
      · rintro (hc | hc)
        · exact hc
        · exact absurd hc hq
      · exact fun hc => Or.inl hc

theorem toggleLeaf_preserves_other_leaves (tree : List FileNode)
    (sel : List String) (p q : String) (hnd : pathsNodup tree)
    (_hp : p ∈ descendantFilesList tree)
    (hq : q ∈ descendantFilesList tree) (hqp : q ≠ p) :
    (q ∈ toggleFile tree sel p ↔ q ∈ sel) := by
  have hperm := paths_perm_list tree
  have hnd2 : (descendantFilesList tree ++ dirPathsOfList tree).Nodup :=
    hperm.nodup hnd
  rcases List.nodup_append.mp hnd2 with ⟨_, _, hdisj⟩
  have hqd : q ∉ dirPathsOfList tree := fun hc => hdisj hq hc
  unfold toggleFile updateParentStates
  rw [processList_stable tree _ q hqd]
  by_cases h : sel.contains p
  · simp only [h, if_true]
    rw [List.mem_filter]
    constructor
    · exact fun hc => hc.1
    · intro hc
      refine ⟨hc, ?_⟩
      simp [hqp]
  · have hb : (sel.contains p) = false := by
      rw [← Bool.not_eq_true]; exact h
    simp only [hb, Bool.false_eq_true, if_false]
    rw [List.mem_append, List.mem_singleton]
    constructor
    · rintro (hc | hc)
      · exact hc
      · exact absurd hc hqp
    · exact fun hc => Or.inl hc

mutual

theorem convertNode_noEmptyDir : ∀ r : RawNode,
    noEmptyDirNode (convertNode r)
  | .mk nm p none => by simp [convertNode, noEmptyDirNode]
  | .mk nm p (some c) => by
    cases c with
    | nil => simp [convertNode, noEmptyDirNode, List.isEmpty]
    | cons h t =>
      have ht := convertList_noEmptyDir (h :: t)
      simp only [convertNode, List.isEmpty, if_false, noEmptyDirNode]
      exact ⟨by simp [convertList], ht⟩

theorem convertList_noEmptyDir : ∀ m : List RawNode,
    noEmptyDirList (convertList m)
  | [] => by simp [convertList, noEmptyDirList]
  | n :: t => by
    simp only [convertList, noEmptyDirList]
    exact ⟨convertNode_noEmptyDir n, convertList_noEmptyDir t⟩

end

theorem splitSlash_chars : ∀ (l : List Char) (piece : List Char),
    piece ∈ splitSlash l → ∀ c ∈ piece, c ≠ '/' ∧ c ∈ l := by
  intro l
  induction l with
  | nil =>
    intro piece hp c hc
    simp only [splitSlash, List.mem_singleton] at hp
    subst hp
    simp at hc
  | cons a rest ih =>
    intro piece hp c hc
    by_cases ha : a = '/'
    · subst ha
      simp only [splitSlash, if_true] at hp
      rcases List.mem_cons.mp hp with rfl | hp
      · simp at hc
      · rcases ih piece hp c hc with ⟨h1, h2⟩
        exact ⟨h1, List.mem_cons_of_mem _ h2⟩
    · simp only [splitSlash, ha, if_false] at hp
      cases hsr : splitSlash rest with
      | nil =>
        rw [hsr] at hp
        simp only [List.mem_singleton] at hp
        subst hp
        rcases List.mem_singleton.mp hc with rfl
        exact ⟨ha, List.mem_cons_self _ _⟩
      | cons ph ps =>
        rw [hsr] at hp
        rcases List.mem_cons.mp hp with rfl | hp
        · rcases List.mem_cons.mp hc with rfl | hc
          · exact ⟨ha, List.mem_cons_self _ _⟩
          · have hph : ph ∈ splitSlash rest := by
              rw [hsr]; exact List.mem_cons_self _ _
            rcases ih ph hph c hc with ⟨h1, h2⟩
            exact ⟨h1, List.mem_cons_of_mem _ h2⟩
        · have hps : piece ∈ splitSlash rest := by
            rw [hsr]; exact List.mem_cons_of_mem _ hp
          rcases ih piece hps c hc with ⟨h1, h2⟩
          exact ⟨h1, List.mem_cons_of_mem _ h2⟩

theorem normalizeSlashes_no_backslash (s : String) :
    ∀ c ∈ normalizeSlashes s, c ≠ '\\' := by
  intro c hc
  rcases List.mem_map.mp hc with ⟨c0, _, rfl⟩
  by_cases h : c0 = '\\'
  · simp [h]
  · simp [h]

theorem splitPath_segOK (s : String) : ∀ part ∈ splitPath s, segOK part := by
  intro part hp
  unfold splitPath at hp
  rcases List.mem_filter.mp hp with ⟨hmem, hne⟩
  rcases List.mem_map.mp hmem with ⟨piece, hpiece, rfl⟩
  constructor
  · intro hc
    rw [hc] at hne
    simp at hne
  · intro c hc
    have hcp : c ∈ piece := hc
    have h2 := splitSlash_chars (normalizeSlashes s) piece hpiece c hcp
    exact ⟨h2.1, normalizeSlashes_no_backslash s c h2.2⟩

theorem rawWFList_append {pre : String} :
    ∀ {m : List RawNode} {n : RawNode},
    rawWFList pre m → rawWFNode pre n → rawWFList pre (m ++ [n]) := by
  intro m
  induction m with
  | nil =>
    intro n _ hn
    simpa [rawWFList] using hn
  | cons a t ih =>
    intro n hm hn
    rcases hm with ⟨ha, ht⟩
    exact ⟨ha, ih ht hn⟩

theorem rawWFList_insertIdxKey {pre : String} {n : RawNode} :
    ∀ {m : List RawNode},
    rawWFNode pre n → rawWFList pre m → rawWFList pre (insertIdxKey n m) := by
  intro m
  induction m with
  | nil =>
    intro hn _
    simpa [insertIdxKey, rawWFList] using hn
  | cons a t ih =>
    intro hn hm
    rcases hm with ⟨ha, ht⟩
    by_cases hcond : (isArrayIndexName a.name &&
        decide (keyNumVal a.name ≤ keyNumVal n.name)) = true
    · simp only [insertIdxKey, hcond, if_true]
      exact ⟨ha, ih hn ht⟩
    · have : (isArrayIndexName a.name &&
          decide (keyNumVal a.name ≤ keyNumVal n.name)) = false := by
        rw [← Bool.not_eq_true]; exact hcond
      simp only [insertIdxKey, this, Bool.false_eq_true, if_false]
      exact ⟨hn, ha, ht⟩

theorem rawWFList_jsObjInsert {pre : String} {m : List RawNode}
    {n : RawNode} (hm : rawWFList pre m) (hn : rawWFNode pre n) :
    rawWFList pre (jsObjInsert m n) := by
  unfold jsObjInsert
  by_cases h : isArrayIndexName n.name
  · simp only [h, if_true]
    exact rawWFList_insertIdxKey hn hm
  · have hb : isArrayIndexName n.name = false := by
      rw [← Bool.not_eq_true]; exact h
    simp only [hb, Bool.false_eq_true, if_false]
    exact rawWFList_append hm hn

theorem insertChain_WF : ∀ (parts : List String) (pre : String)
    (m : List RawNode), (∀ s ∈ parts, segOK s) → rawWFList pre m →
    rawWFList pre (insertChain parts pre m)
  | [], pre, m, _, hm => hm
  | part :: rest, pre, m, hseg, hm => by
    have hpart : segOK part := hseg part (List.mem_cons_self _ _)
    have hrest : ∀ s ∈ rest, segOK s := fun s hs =>
      hseg s (List.mem_cons_of_mem _ hs)
    simp only [insertChain]
    by_cases hany : (m.any fun n => n.name == part) = true
    · simp only [hany, if_true]
      clear hany
      induction m with
      | nil => exact hm
      | cons a t iht =>
        rcases hm with ⟨ha, ht⟩
        refine ⟨?_, iht ht⟩
        by_cases hname : (a.name == part) = true
        · simp only [hname, if_true]
          match a, ha with
          | .mk nm0 p0 none, ha => exact ha
          | .mk nm0 p0 (some c), ha =>
            rcases ha with ⟨h1, h2, h3⟩
            have hnm : nm0 = part := by
              simpa [RawNode.name] using hname
            refine ⟨h1, h2, ?_⟩
            have hp0 : p0 =
                (if pre = "" then part else pre ++ "/" ++ part) := by
              rw [h2, hnm]
              simp [childPath]
            simp only [RawNode.name, RawNode.path]
            rw [← hp0]
            exact insertChain_WF rest p0 c hrest h3
        · have hb : (a.name == part) = false := by
            rw [← Bool.not_eq_true]; exact hname
          simp only [hb, Bool.false_eq_true, if_false]
          exact ha
    · have hb : (m.any fun n => n.name == part) = false := by
        rw [← Bool.not_eq_true]; exact hany
      simp only [hb, Bool.false_eq_true, if_false]
      apply rawWFList_jsObjInsert hm
      cases hre : rest.isEmpty
      · simp only [Bool.false_eq_true, if_false]
        refine ⟨hpart, ?_, ?_⟩
        · simp [childPath]
        · exact insertChain_WF rest _ [] hrest trivial
      · simp only [if_true]
        exact ⟨hpart, by simp [childPath]⟩

theorem rawBuild_WF (files : List String) : rawWFList "" (rawBuild files) := by
  unfold rawBuild
  suffices h : ∀ (fs : List String) (acc : List RawNode), rawWFList "" acc →
      rawWFList ""
        (fs.foldl
          (fun root filePath =>
            if filePath = "" then root
            else insertChain (splitPath filePath) "" root) acc) by
    exact h files [] trivial
  intro fs
  induction fs with
  | nil => intro acc hacc; exact hacc
  | cons f ft ih =>
    intro acc hacc
    simp only [List.foldl_cons]
    apply ih
    by_cases hf : f = ""
    · simpa [hf] using hacc
    · simp only [hf, if_false]
      exact insertChain_WF (splitPath f) "" acc (splitPath_segOK f) hacc

mutual

theorem convertNode_WF : ∀ (pre : String) (r : RawNode),
    rawWFNode pre r → pathsWFNode pre (convertNode r)
  | pre, .mk nm p none, h => by
    simpa [convertNode, pathsWFNode, rawWFNode] using h
  | pre, .mk nm p (some c), h => by
    rcases h with ⟨h1, h2, h3⟩
    cases c with
    | nil => simp [convertNode, pathsWFNode, List.isEmpty, h1, h2]
    | cons x t =>
      have hc := convertList_WF p (x :: t) h3
      simp only [convertNode, List.isEmpty, Bool.false_eq_true, if_false,
        pathsWFNode]
      exact ⟨h1, h2, hc⟩

theorem convertList_WF : ∀ (pre : String) (m : List RawNode),
    rawWFList pre m → pathsWFList pre (convertList m)
  | _, [], _ => trivial
  | pre, n :: t, h => by
    rcases h with ⟨hn, ht⟩
    exact ⟨convertNode_WF pre n hn, convertList_WF pre t ht⟩

end

theorem buildTree_WF (files : List String) :
    pathsWFList "" (buildTree files) :=
  convertList_WF "" (rawBuild files) (rawBuild_WF files)

theorem no_slash_chain (l : List Char) (h : ∀ c ∈ l, c ≠ '/') :
    l.Chain' (fun a b => ¬(a = '/' ∧ b = '/')) := by
  induction l with
  | nil => simp
  | cons a t ih =>
    rw [List.chain'_cons']
    refine ⟨?_, ih (fun c hc => h c (List.mem_cons_of_mem _ hc))⟩
    intro y _
    rintro ⟨ha, _⟩
    exact h a (List.mem_cons_self _ _) ha

theorem string_ne_empty_iff (s : String) : s ≠ "" ↔ s.data ≠ [] := by
  rw [not_iff_not, String.ext_iff]

theorem segOK_pathOK {nm : String} (h : segOK nm) : pathOK nm := by
  rcases h with ⟨h1, h2⟩
  refine ⟨h1, fun c hc => (h2 c hc).2, ?_, ?_, ?_⟩
  · intro hc
    exact (h2 _ (List.mem_of_mem_head? hc)).1 rfl
  · intro hc
    exact (h2 _ (List.mem_of_mem_getLast? hc)).1 rfl
  · exact no_slash_chain _ (fun c hc => (h2 c hc).1)

theorem childPath_pathOK {pre nm : String} (hpre : pre = "" ∨ pathOK pre)
    (hnm : segOK nm) : pathOK (childPath pre nm) := by
  rcases hpre with rfl | hpre
  · simpa [childPath] using segOK_pathOK hnm
  · have hprene : pre ≠ "" := by
      intro h
      rw [h] at hpre
      exact hpre.1 rfl
    rcases hnm with ⟨hnm1, hnm2⟩
    have hnmne : nm.data ≠ [] := (string_ne_empty_iff nm).mp hnm1
    have hpredne : pre.data ≠ [] := (string_ne_empty_iff pre).mp hprene
    rcases hpre with ⟨_, hpre2, hpre3, hpre4, hpre5⟩
    have hdata : (childPath pre nm).data = pre.data ++ '/' :: nm.data := by
      simp only [childPath, hprene, if_false]
      rw [String.data_append, String.data_append]
      simp
    refine ⟨?_, ?_, ?_, ?_, ?_⟩
    · rw [string_ne_empty_iff, hdata]
      simp
    · intro c hc
      rw [hdata] at hc
      rcases List.mem_append.mp hc with hc | hc
      · exact hpre2 c hc
      · rcases List.mem_cons.mp hc with rfl | hc
        · decide
        · exact (hnm2 c hc).2
    · rw [hdata, List.head?_append_of_ne_nil _ hpredne]
      exact hpre3
    · rw [hdata]
      have hne2 : ('/' :: nm.data) ≠ [] := by simp
      rw [List.getLast?_append_of_ne_nil _ hne2]
      intro hc
      have hl : ('/' :: nm.data).getLast? = nm.data.getLast? := by
        have heq : ('/' :: nm.data) = ['/'] ++ nm.data := rfl
        rw [heq, List.getLast?_append_of_ne_nil _ hnmne]
      rw [hl] at hc
      exact (hnm2 _ (List.mem_of_mem_getLast? hc)).1 rfl
    · rw [hdata, List.chain'_append]
      refine ⟨hpre5, ?_, ?_⟩
      · rw [List.chain'_cons']
        refine ⟨?_, no_slash_chain _ (fun c hc => (hnm2 c hc).1)⟩
        intro y hy
        rintro ⟨_, hy2⟩
        have hym : y ∈ nm.data := List.mem_of_mem_head? hy
        exact (hnm2 y hym).1 hy2
      · intro x hx y hy
        rintro ⟨hx2, _⟩
        rw [hx2] at hx
        exact hpre4 hx

theorem childPath_ne_empty {pre nm : String} (h : segOK nm) :
    childPath pre nm ≠ "" := by
  unfold childPath
  by_cases hpre : pre = ""
  · simpa [hpre] using h.1
  · simp only [hpre, if_false]
    rw [string_ne_empty_iff]
    rw [String.data_append, String.data_append]
    simp

mutual

theorem pathsWFNode_pathOK : ∀ (pre : String) (n : FileNode),
    (pre = "" ∨ pathOK pre) → pathsWFNode pre n → pathOKNode n
  | pre, .mk nm p none, hpre, h => by
    rcases h with ⟨h1, h2⟩
    simp only [pathOKNode]
    rw [h2]
    exact childPath_pathOK hpre h1
  | pre, .mk nm p (some cs), hpre, h => by
    rcases h with ⟨h1, h2, h3⟩
    have hp : pathOK p := h2 ▸ childPath_pathOK hpre h1
    exact ⟨hp, pathsWFList_pathOK p cs (Or.inr hp) h3⟩

theorem pathsWFList_pathOK : ∀ (pre : String) (l : List FileNode),
    (pre = "" ∨ pathOK pre) → pathsWFList pre l → pathOKList l
  | _, [], _, _ => trivial
  | pre, n :: t, hpre, h => by
    rcases h with ⟨hn, ht⟩
    exact ⟨pathsWFNode_pathOK pre n hpre hn, pathsWFList_pathOK pre t hpre ht⟩

end

theorem insertChain_eq_specOrder :
    ∀ (parts : List String) (pre : String) (m : List RawNode),
    (∀ s ∈ parts, isArrayIndexName s = false) →
    insertChain parts pre m = insertChainSpecOrder parts pre m
  | [], _, _, _ => rfl
  | part :: rest, pre, m, hidx => by
    have hpart : isArrayIndexName part = false :=
      hidx part (List.mem_cons_self _ _)
    have hrest : ∀ s ∈ rest, isArrayIndexName s = false := fun s hs =>
      hidx s (List.mem_cons_of_mem _ hs)
    simp only [insertChain, insertChainSpecOrder]
    by_cases hany : (m.any fun n => n.name == part) = true
    · simp only [hany, if_true]
      apply List.map_congr_left
      intro a _
      by_cases hname : (a.name == part) = true
      · simp only [hname, if_true]
        match a with
        | .mk nm0 p0 none => rfl
        | .mk nm0 p0 (some c) =>
          simp only [RawNode.children]
          rw [insertChain_eq_specOrder rest _ c hrest]
      · have hb : (a.name == part) = false := by
          rw [← Bool.not_eq_true]; exact hname
        simp only [hb, Bool.false_eq_true, if_false]
    · have hb : (m.any fun n => n.name == part) = false := by
        rw [← Bool.not_eq_true]; exact hany
      simp only [hb, Bool.false_eq_true, if_false]
      rw [insertChain_eq_specOrder rest _ [] hrest]
      unfold jsObjInsert
      simp only [RawNode.name, hpart, Bool.false_eq_true, if_false]

theorem buildTree_eq_specOrder (files : List String)
    (hidx : ∀ f ∈ files, ∀ s ∈ splitPath f, isArrayIndexName s = false) :
    buildTree files = buildTreeSpecOrder files := by
  unfold buildTree buildTreeSpecOrder
  congr 1
  unfold rawBuild rawBuildSpecOrder
  suffices h : ∀ (fs : List String) (acc : List RawNode),
      (∀ f ∈ fs, ∀ s ∈ splitPath f, isArrayIndexName s = false) →
      (fs.foldl
        (fun root filePath =>
          if filePath = "" then root
          else insertChain (splitPath filePath) "" root) acc) =
      (fs.foldl
        (fun root filePath =>
          if filePath = "" then root
          else insertChainSpecOrder (splitPath filePath) "" root) acc) by
    exact h files [] hidx
  intro fs
  induction fs with
  | nil => intro acc _; rfl
  | cons f ft ih =>
    intro acc hacc
    simp only [List.foldl_cons]
    rw [show (if f = "" then acc
        else insertChain (splitPath f) "" acc) =
        (if f = "" then acc
        else insertChainSpecOrder (splitPath f) "" acc) from ?_]
    · exact ih _ (fun g hg => hacc g (List.mem_cons_of_mem _ hg))
    · by_cases hf : f = ""
      · simp [hf]
      · simp only [hf, if_false]
        exact insertChain_eq_specOrder (splitPath f) "" acc
          (hacc f (List.mem_cons_self _ _))

/-! ### Claim theorems -/

/-- C1 (counterexample): the claimed invariant "a folder's path is stored
in the SelectionSet iff all its descendant leaves are" fails after a
`toggleFolder` operation from the empty selection: on the tree built from
`["a/b.txt"]`, toggling folder `a` selects its only leaf but never stores
`"a"` itself, so the stored folder membership disagrees with the leaves. -/
theorem toggleFolder_breaks_selection_invariant :
    buildTree ["a/b.txt"] =
      [FileNode.mk "a" "a" (some [FileNode.mk "b.txt" "a/b.txt" none])] ∧
    toggleFolder []
        (FileNode.mk "a" "a" (some [FileNode.mk "b.txt" "a/b.txt" none])) =
      ["a/b.txt"] ∧
    ¬ selectionInvariant (buildTree ["a/b.txt"])
        (toggleFolder []
          (FileNode.mk "a" "a"
            (some [FileNode.mk "b.txt" "a/b.txt" none]))) :=
  ⟨rfl, rfl, by unfold selectionInvariant; decide⟩

/-- C1 (amended): after every `toggleLeaf` operation — from any
duplicate-free selection, over a tree with pairwise distinct node paths —
every folder node's path is in the resulting selection iff all of its
descendant leaf paths are.  (`toggleFolder` does not maintain stored
folder membership; only the leaf toggle re-derives it.) -/
theorem toggleLeaf_establishes_selection_invariant
    (tree : List FileNode) (sel : List String) (p : String)
    (hnd : pathsNodup tree) (hsel : sel.Nodup) :
    selectionInvariant tree (toggleFile tree sel p) :=
  toggleLeaf_establishes_invariant tree sel p hnd hsel

theorem toggleLeaf_establishes_selection_invariant_witness :
    selectionInvariant
      (buildTree ["root/a.txt", "root/sub/b.txt", "root/sub/c.txt"])
      (toggleFile
        (buildTree ["root/a.txt", "root/sub/b.txt", "root/sub/c.txt"])
        [] "root/sub/b.txt") :=
  toggleLeaf_establishes_selection_invariant _ [] "root/sub/b.txt"
    (by unfold pathsNodup; decide) List.nodup_nil

/-- C2 (counterexample): `toggleFolder(toggleFolder(S, f), f) = S` fails
when `f` is partially selected: with folder `a` over leaves `a/b.txt` and
`a/c.txt` and selection `["a/b.txt"]`, the first toggle selects both
leaves and the second removes both, ending empty instead of restoring
`["a/b.txt"]`. -/
theorem toggleFolder_twice_partial_counterexample :
    buildTree ["a/b.txt", "a/c.txt"] =
      [FileNode.mk "a" "a" (some
        [FileNode.mk "b.txt" "a/b.txt" none,
         FileNode.mk "c.txt" "a/c.txt" none])] ∧
    toggleFolder
        (toggleFolder ["a/b.txt"]
          (FileNode.mk "a" "a" (some
            [FileNode.mk "b.txt" "a/b.txt" none,
             FileNode.mk "c.txt" "a/c.txt" none])))
        (FileNode.mk "a" "a" (some
          [FileNode.mk "b.txt" "a/b.txt" none,
           FileNode.mk "c.txt" "a/c.txt" none])) = [] ∧
    "a/b.txt" ∈ (["a/b.txt"] : List String) ∧
    "a/b.txt" ∉ ([] : List String) :=
  ⟨rfl, rfl, by decide, by decide⟩

/-- C2 (amended): two consecutive `toggleFolder` applications on the same
node return a selection with the same membership as the original,
provided the node's descendant leaves are either all in the selection or
all absent from it (i.e. the folder is not partially selected). -/
theorem toggleFolder_twice_restores_membership (node : FileNode)
    (sel : List String)
    (hclean : (∀ d ∈ getAllDescendantFiles node, d ∈ sel) ∨
      (∀ d ∈ getAllDescendantFiles node, d ∉ sel)) :
    ∀ x, x ∈ toggleFolder (toggleFolder sel node) node ↔ x ∈ sel :=
  toggleFolder_twice_membership node sel hclean

theorem toggleFolder_twice_restores_membership_witness :
    "a/b.txt" ∈
        toggleFolder
          (toggleFolder []
            (FileNode.mk "a" "a" (some
              [FileNode.mk "b.txt" "a/b.txt" none,
               FileNode.mk "c.txt" "a/c.txt" none])))
          (FileNode.mk "a" "a" (some
            [FileNode.mk "b.txt" "a/b.txt" none,
             FileNode.mk "c.txt" "a/c.txt" none])) ↔
      "a/b.txt" ∈ ([] : List String) :=
  toggleFolder_twice_restores_membership _ [] (Or.inr (by decide)) "a/b.txt"

/-- C3 (code evaluated at the failing input): a node first created as a
leaf is never reclassified to a folder.  `buildTree` walks into
`__node.children ?? {}`, so a path extending past an existing leaf is
written into a throwaway object: from `["a", "a/b.txt"]` (and likewise
with an explicit trailing separator, `["a/", "a/b.txt"]`) the tree keeps
`a` as a childless leaf and drops `a/b.txt` entirely, instead of turning
`a` into a folder with child `b.txt`. -/
theorem buildTree_drops_extension_past_leaf :
    buildTree ["a", "a/b.txt"] = [FileNode.mk "a" "a" none] ∧
    buildTree ["a/", "a/b.txt"] = [FileNode.mk "a" "a" none] :=
  ⟨rfl, rfl⟩

/-- C4 (counterexample): toggling a path absent from the tree is not a
no-op: on the tree built from `["a/b.txt"]`, whose node paths are
`["a", "a/b.txt"]`, toggling `"ghost"` from the empty selection returns
`["ghost"]`, a set with different membership. -/
theorem toggleLeaf_absent_path_not_noop :
    (allNodes (buildTree ["a/b.txt"])).map FileNode.path =
      ["a", "a/b.txt"] ∧
    "ghost" ∉ (["a", "a/b.txt"] : List String) ∧
    toggleFile (buildTree ["a/b.txt"]) [] "ghost" = ["ghost"] ∧
    "ghost" ∈ toggleFile (buildTree ["a/b.txt"]) [] "ghost" ∧
    "ghost" ∉ ([] : List String) :=
  ⟨rfl, by decide, rfl, by decide, by decide⟩

/-- C4 (amended): toggling a path `p` that is not the path of any tree
node flips `p`'s own membership in the selection, and leaves the
membership of every other path that is not a folder path of the tree
unchanged (folder paths are still re-derived consistently). -/
theorem toggleLeaf_absent_path_flips_only_target (tree : List FileNode)
    (sel : List String) (p : String)
    (hp : p ∉ (allNodes tree).map FileNode.path) :
    (p ∈ toggleFile tree sel p ↔ p ∉ sel) ∧
      ∀ q, q ≠ p → q ∉ dirPathsOfList tree →
        (q ∈ toggleFile tree sel p ↔ q ∈ sel) :=
  toggleLeaf_absent_path_flips_only_itself tree sel p hp

theorem toggleLeaf_absent_path_flips_only_target_witness :
    ("ghost" ∈ toggleFile (buildTree ["a/b.txt"]) [] "ghost" ↔
      "ghost" ∉ ([] : List String)) ∧
    ("a/b.txt" ∈ toggleFile (buildTree ["a/b.txt"]) [] "ghost" ↔
      "a/b.txt" ∈ ([] : List String)) :=
  ⟨(toggleLeaf_absent_path_flips_only_target _ [] "ghost" (by decide)).1,
   (toggleLeaf_absent_path_flips_only_target _ [] "ghost" (by decide)).2
     "a/b.txt" (by decide) (by decide)⟩

/-- C5 (counterexample): sibling order does not always follow
first-occurrence order: for input `["b", "1"]` the first-occurrence order
of top-level segments is `["b", "1"]`, but the built tree lists `"1"`
first, because a JavaScript object enumerates canonical numeric keys
before string keys. -/
theorem buildTree_digit_names_reordered :
    (buildTree ["b", "1"]).map FileNode.name = ["1", "b"] ∧
    jsSetOfList (["b", "1"].filterMap (fun f => (splitPath f).head?)) [] =
      ["b", "1"] ∧
    (["1", "b"] : List String) ≠ ["b", "1"] :=
  ⟨rfl, rfl, by decide⟩

/-- C5 (amended): the built tree preserves first-occurrence (insertion)
order of siblings at every level provided no path segment is a canonical
array-index (digit) string; such segments are instead hoisted to the
front of their sibling list in ascending numeric order.  Formally, when
no segment is an array-index name, `buildTree` coincides with
`buildTreeSpecOrder`, the insertion-order builder the spec describes. -/
theorem buildTree_insertion_order_unless_numeric (files : List String)
    (hidx : ∀ f ∈ files, ∀ s ∈ splitPath f, isArrayIndexName s = false) :
    buildTree files = buildTreeSpecOrder files :=
  buildTree_eq_specOrder files hidx

theorem buildTree_insertion_order_unless_numeric_witness :
    buildTree ["root/b.txt", "root/a.txt"] =
      buildTreeSpecOrder ["root/b.txt", "root/a.txt"] :=
  buildTree_insertion_order_unless_numeric _ (by decide)

/-- C6: on the tree built from
`["root/a.txt", "root/sub/b.txt", "root/sub/c.txt"]`, one `toggleFolder`
on `sub` from the empty selection yields exactly
`["root/sub/b.txt", "root/sub/c.txt"]`, with `isNodeSelected(sub) = true`
and `isNodeSelected(root) = false`. -/
theorem toggleFolder_cascade_example :
    buildTree ["root/a.txt", "root/sub/b.txt", "root/sub/c.txt"] =
      [FileNode.mk "root" "root" (some
        [FileNode.mk "a.txt" "root/a.txt" none,
         FileNode.mk "sub" "root/sub" (some
           [FileNode.mk "b.txt" "root/sub/b.txt" none,
            FileNode.mk "c.txt" "root/sub/c.txt" none])])] ∧
    toggleFolder []
        (FileNode.mk "sub" "root/sub" (some
          [FileNode.mk "b.txt" "root/sub/b.txt" none,
           FileNode.mk "c.txt" "root/sub/c.txt" none])) =
      ["root/sub/b.txt", "root/sub/c.txt"] ∧
    isNodeSelected ["root/sub/b.txt", "root/sub/c.txt"]
        (FileNode.mk "sub" "root/sub" (some
          [FileNode.mk "b.txt" "root/sub/b.txt" none,
           FileNode.mk "c.txt" "root/sub/c.txt" none])) = true ∧
    isNodeSelected ["root/sub/b.txt", "root/sub/c.txt"]
        (FileNode.mk "root" "root" (some
          [FileNode.mk "a.txt" "root/a.txt" none,
           FileNode.mk "sub" "root/sub" (some
             [FileNode.mk "b.txt" "root/sub/b.txt" none,
              FileNode.mk "c.txt" "root/sub/c.txt" none])])) = false :=
  ⟨rfl, rfl, rfl, rfl⟩

/-- C7: selection toggles never change the `expanded` cell and
expansion operations (`toggleExpand`, and the spec's `expand`/`collapse`)
never change the `selected` cell. -/
theorem selection_expansion_independent (tree : List FileNode)
    (node : FileNode) (p q r : String) (s : ComponentState) :
    (toggleFileState tree p s).expanded = s.expanded ∧
    (toggleFolderState node s).expanded = s.expanded ∧
    (toggleExpandState q s).selected = s.selected ∧
    (expandState r s).selected = s.selected ∧
    (collapseState r s).selected = s.selected :=
  ⟨rfl, rfl, rfl, rfl, rfl⟩

/-- C8: toggling one leaf path `p` never changes the membership of any
other leaf path `q` of a tree with pairwise distinct node paths: the
flip touches only `p` and the ancestor re-derivation touches only folder
paths. -/
theorem toggleLeaf_frames_other_leaves (tree : List FileNode)
    (sel : List String) (p q : String) (hnd : pathsNodup tree)
    (hp : p ∈ descendantFilesList tree)
    (hq : q ∈ descendantFilesList tree) (hqp : q ≠ p) :
    (q ∈ toggleFile tree sel p ↔ q ∈ sel) :=
  toggleLeaf_preserves_other_leaves tree sel p q hnd hp hq hqp

theorem toggleLeaf_frames_other_leaves_witness :
    ("a/c.txt" ∈
        toggleFile (buildTree ["a/b.txt", "a/c.txt"]) [] "a/b.txt" ↔
      "a/c.txt" ∈ ([] : List String)) :=
  toggleLeaf_frames_other_leaves _ [] "a/b.txt" "a/c.txt"
    (by unfold pathsNodup; decide) (by decide) (by decide) (by decide)

/-- C9: no node of a built tree carries an empty `children` array: every
node either has no `children` field or a `children` list with at least
one element. -/
theorem buildTree_no_empty_children (files : List String) :
    noEmptyDirList (buildTree files) :=
  convertList_noEmptyDir (rawBuild files)

/-- C10: in every built tree, each node's name is a non-empty segment
free of separators, each node's path is its parent's path plus `/` plus
its name (its bare name at top level), and consequently every node path
is non-empty, contains no backslash and has no leading, trailing or
doubled slash (no empty segments). -/
theorem buildTree_paths_wellformed (files : List String) :
    pathsWFList "" (buildTree files) ∧ pathOKList (buildTree files) :=
  ⟨buildTree_WF files,
   pathsWFList_pathOK "" (buildTree files) (Or.inl rfl)
     (buildTree_WF files)⟩
